import Mathlib

/-
Verification development for the AKVF mesh-deformation notebook.

The numerical core of the repository lives in `AKVF.ipynb`:
  * the discrete gradient `G = igl.grad(v, f)` is split into `Gx, Gy, Gz`
    (each an `m × n` block); `igl.grad` is an external library call, so the
    three blocks are parameters of the embedding;
  * the Killing-energy operator `P` is the 6-by-3 block matrix
    `bmat [[2Gx,0,0],[0,2Gy,0],[0,0,2Gz],[S Gy,S Gx,0],[S Gz,0,S Gx],[0,S Gz,S Gy]]`
    with `S = sqrt 2`;
  * the constraint operator is built by the loop `for i, idx in enumerate(idxs): I[i, idx] = 1`
    followed by `Ik = bmat [[I,0,0],[0,I,0],[0,0,I]]`;
  * the least-squares system is `A = bmat [[P],[lmbd*Ik]]`,
    `b = hstack [zeros(6m), lmbd * dv[idxs].flatten(order F)]`, solved with
    `scipy.sparse.linalg.lsqr`, and the solution is reshaped with `order F`;
  * the per-face energy is `np.square(P @ sol[0]).reshape(m, -1, order F).sum(-1)`.

Matrices are embedded as total functions `ℕ → ℕ → α` (zero outside their
shape), vectors as `ℕ → α`, with the shapes carried explicitly by the
statements.  The scalar type is a general linear ordered field so that every
definition stays executable; the claim theorems instantiate it at `ℝ` with
`S = Real.sqrt 2`, matching `S = np.sqrt(2)` of the notebook (float arithmetic
is idealised as exact real arithmetic).
-/

namespace AKVF

variable {α : Type} [LinearOrderedField α]

/-- Zero block, the embedding of the `None` (and `0*I`) blocks of `scipy.sparse.bmat`. -/
def zeroM : ℕ → ℕ → α := fun _ _ => 0

/-- Scalar multiple of a block, e.g. `2*Gx`, `S*Gy`, `lmbd*Ik` in the notebook. -/
def cmul (c : α) (B : ℕ → ℕ → α) : ℕ → ℕ → α := fun i j => c * B i j

/-- Horizontal concatenation of three blocks of common column count `n`:
one block row of `scipy.sparse.bmat [[B0, B1, B2]]`. -/
def hcat3 (n : ℕ) (B0 B1 B2 : ℕ → ℕ → α) : ℕ → ℕ → α := fun i j =>
  if j < n then B0 i j
  else if j < 2 * n then B1 i (j - n)
  else if j < 3 * n then B2 i (j - 2 * n)
  else 0

/-- Vertical stack of two blocks, the first one having `r1` rows:
`scipy.sparse.bmat [[T], [B]]`. -/
def vstack (r1 : ℕ) (T B : ℕ → ℕ → α) : ℕ → ℕ → α := fun i j =>
  if i < r1 then T i j else B (i - r1) j

/-- The Killing-energy operator of the notebook,
`P = sp.sparse.bmat([[2*Gx, None, None], [None, 2*Gy, None], [None, None, 2*Gz],
[S*Gy, S*Gx, None], [S*Gz, None, S*Gx], [None, S*Gz, S*Gy]])`,
where `Gx, Gy, Gz` are the `m × n` gradient blocks returned by the external
`igl.grad` and `S` stands for the notebook `S = np.sqrt(2)`. -/
def P (m n : ℕ) (S : α) (Gx Gy Gz : ℕ → ℕ → α) : ℕ → ℕ → α := fun i j =>
  if i < m then hcat3 n (cmul 2 Gx) zeroM zeroM i j
  else if i < 2 * m then hcat3 n zeroM (cmul 2 Gy) zeroM (i - m) j
  else if i < 3 * m then hcat3 n zeroM zeroM (cmul 2 Gz) (i - 2 * m) j
  else if i < 4 * m then hcat3 n (cmul S Gy) (cmul S Gx) zeroM (i - 3 * m) j
  else if i < 5 * m then hcat3 n (cmul S Gz) zeroM (cmul S Gx) (i - 4 * m) j
  else if i < 6 * m then hcat3 n zeroM (cmul S Gz) (cmul S Gy) (i - 5 * m) j
  else 0

/-- Matrix-vector product over the matrix `cols` columns (`A @ x`). -/
def matVec (cols : ℕ) (A : ℕ → ℕ → α) (x : ℕ → α) : ℕ → α := fun i =>
  ∑ j ∈ Finset.range cols, A i j * x j

/-- Squared Euclidean norm of the first `N` entries of a vector. -/
def sqnormN (N : ℕ) (v : ℕ → α) : α := ∑ r ∈ Finset.range N, v r ^ 2

/-- Errors that can surface from the embedded pipeline.  `indexError` is the
generic out-of-range error raised by the sparse-matrix library on
`I[i, idx] = 1` with `idx` out of range; the remaining constructors are the
error vocabulary of the specification (the notebook itself never produces
them). -/
inductive AkvfErr where
  | indexError
  | invalidMesh
  | invalidConstraint
  | numericalInstability
deriving DecidableEq

/-- Pointwise update of a matrix entry, the embedding of `I[i, idx] = value`. -/
def setEntry (M : ℕ → ℕ → α) (r c : ℕ) (v : α) : ℕ → ℕ → α := fun i j =>
  if i = r ∧ j = c then v else M i j

/-- The loop `for i, idx in enumerate(idxs): I[i, idx] = 1` starting at row
`i0` with current matrix `M`.  Setting an entry whose column is out of the `n`
columns raises the library index error, exactly as `scipy` does. -/
def buildIAux (n : ℕ) (i0 : ℕ) (idxs : List ℕ) (M : ℕ → ℕ → α) :
    Except AkvfErr (ℕ → ℕ → α) :=
  match idxs with
  | [] => Except.ok M
  | idx :: rest =>
      if idx < n then buildIAux n (i0 + 1) rest (setEntry M i0 idx 1)
      else Except.error AkvfErr.indexError

/-- The notebook construction of the selection matrix `I`:
`I = sp.sparse.csr_matrix((k, n))` followed by the enumerate loop. -/
def buildI (n : ℕ) (idxs : List ℕ) : Except AkvfErr (ℕ → ℕ → α) :=
  buildIAux n 0 idxs (fun _ _ => 0)

/-- Closed form of the selection matrix produced by `buildI` on success:
row `i` has a `1` exactly at column `idxs[i]`. -/
def Ifun (idxs : List ℕ) : ℕ → ℕ → α := fun i j =>
  if i < idxs.length ∧ idxs.getD i 0 = j then 1 else 0

/-- The constraint operator of the notebook,
`Ik = sp.sparse.bmat([[1*I, 0*I, 0*I], [0*I, 1*I, 0*I], [0*I, 0*I, 1*I]])`. -/
def Ik (k n : ℕ) (I : ℕ → ℕ → α) : ℕ → ℕ → α := fun i j =>
  if i < k then hcat3 n I zeroM zeroM i j
  else if i < 2 * k then hcat3 n zeroM I zeroM (i - k) j
  else if i < 3 * k then hcat3 n zeroM zeroM I (i - 2 * k) j
  else 0

/-- The fancy-indexed target rows `dv[idxs]` (a `k × 3` array). -/
def targetsOf (idxs : List ℕ) (dv : ℕ → ℕ → α) : ℕ → ℕ → α := fun i c =>
  dv (idxs.getD i 0) c

/-- Column-major (`order F`) flattening of a `k`-row array:
entry `c*k + i` of the flat vector is entry `(i, c)` of the array. -/
def flattenF (k : ℕ) (M : ℕ → ℕ → α) : ℕ → α := fun r => M (r % k) (r / k)

/-- Column-major (`order F`) reshape of a flat vector into an `n`-row array:
`du = sol[0].reshape(v.shape, order F)`. -/
def reshapeF (n : ℕ) (x : ℕ → α) : ℕ → ℕ → α := fun i c => x (c * n + i)

/-- The stacked least-squares matrix `A = sp.sparse.bmat([[P], [lmbd*Ik]])`. -/
def A (m k : ℕ) (lmbd : α) (Pm Ikm : ℕ → ℕ → α) : ℕ → ℕ → α :=
  vstack (6 * m) Pm (cmul lmbd Ikm)

/-- The right-hand side
`b = np.hstack([np.zeros([P.shape[0]]), lmbd * dv[idxs].flatten(order F)])`. -/
def b (m k : ℕ) (lmbd : α) (T : ℕ → ℕ → α) : ℕ → α := fun r =>
  if r < 6 * m then 0 else lmbd * flattenF k T (r - 6 * m)

/-- Diagnostic part of the tuple returned by `scipy.sparse.linalg.lsqr`;
`istop` is scipy stopping-reason flag (`istop = 7` means the iteration
limit was reached without convergence). -/
structure LsqrInfo where
  istop : ℕ

/-- The least-squares cells of the notebook as one function of their inputs:
build `P`, build `I` and `Ik` from `idxs`, stack `A` and `b`, call the
external solver `lsqrF` and reshape the first component of its result.
`lsqrF` abstracts `sp.sparse.linalg.lsqr`; exactly as in the notebook, only
component `sol[0]` of its output is used. -/
def solve_akvf (S : α)
    (lsqrF : (ℕ → ℕ → α) → (ℕ → α) → ((ℕ → α) × LsqrInfo))
    (m n : ℕ) (Gx Gy Gz : ℕ → ℕ → α) (idxs : List ℕ) (dv : ℕ → ℕ → α)
    (lmbd : α) : Except AkvfErr (ℕ → ℕ → α) := do
  let k := idxs.length
  let Pm := P m n S Gx Gy Gz
  let Iv ← buildI n idxs
  let Ikm := Ik k n Iv
  let Am := A m k lmbd Pm Ikm
  let bv := b m k lmbd (targetsOf idxs dv)
  let sol := lsqrF Am bv
  pure (reshapeF n sol.1)

/-- The per-face Killing energy of the notebook,
`e_K = np.square(P @ sol[0]).reshape(len(f), -1, order F).sum(-1)`:
the order-`F` reshape of the squared vector into `m` rows of `6` summed over
the last axis gives, at face `i`, the sum over `c < 6` of entry `c*m + i`. -/
def e_K (m n : ℕ) (Pm : ℕ → ℕ → α) (x : ℕ → α) : ℕ → α := fun i =>
  ∑ c ∈ Finset.range 6, matVec (3 * n) Pm x (c * m + i) ^ 2

/-- Modelled from the spec: the objective `‖A·x − b‖₂²` of the least-squares
solve (`scipy.sparse.linalg.lsqr` is an external library; the spec describes
it as solving `min ‖A·x − b‖₂`). -/
def lstsqObjective (rows cols : ℕ) (Am : ℕ → ℕ → α) (bv : ℕ → α) (x : ℕ → α) : α :=
  sqnormN rows (fun i => matVec cols Am x i - bv i)

/-- Modelled from the spec: `x` is a least-squares solution of the system. -/
def IsLSQSol (rows cols : ℕ) (Am : ℕ → ℕ → α) (bv : ℕ → α) (x : ℕ → α) : Prop :=
  ∀ y, lstsqObjective rows cols Am bv x ≤ lstsqObjective rows cols Am bv y

/-- Modelled from the spec: `x` is the minimum-norm least-squares solution,
which is what the spec states the iterative solver returns on rank-deficient
systems. -/
def IsMinNormLSQ (rows cols : ℕ) (Am : ℕ → ℕ → α) (bv : ℕ → α) (x : ℕ → α) : Prop :=
  IsLSQSol rows cols Am bv x ∧
    ∀ y, IsLSQSol rows cols Am bv y → sqnormN cols x ≤ sqnormN cols y

/-- Cross product of two 3-vectors (components `0,1,2`), used to describe
infinitesimal rotations. -/
def cross3 (w p : ℕ → α) : ℕ → α := fun c =>
  if c = 0 then w 1 * p 2 - w 2 * p 1
  else if c = 1 then w 2 * p 0 - w 0 * p 2
  else if c = 2 then w 0 * p 1 - w 1 * p 0
  else 0

/-- Modelled from the spec: the displacement field `U` lies in the
6-dimensional rigid-motion space over the vertices `v`, i.e. it is a
translation `t` plus an infinitesimal rotation `w × p` of the positions. -/
def RigidDisp (v : ℕ → ℕ → α) (n : ℕ) (U : ℕ → ℕ → α) : Prop :=
  ∃ t w : ℕ → α, ∀ i < n, ∀ c < 3, U i c = t c + cross3 w (fun d => v i d) c

/-- Modelled from the spec: the constraint violation
`E_C(U) = ∑_{p_i ∈ C} ‖U(p_i) − u_i‖²` summed over the constraint rows. -/
def E_C (idxs : List ℕ) (dv : ℕ → ℕ → α) (U : ℕ → ℕ → α) : α :=
  ∑ i ∈ Finset.range idxs.length, ∑ c ∈ Finset.range 3,
    (U (idxs.getD i 0) c - dv (idxs.getD i 0) c) ^ 2

/-! ### Entry lemmas for the block operators -/

lemma hcat3_b0 {n : ℕ} {B0 B1 B2 : ℕ → ℕ → α} {i j : ℕ} (h : j < n) :
    hcat3 n B0 B1 B2 i j = B0 i j := by
  simp [hcat3, h]

lemma hcat3_b1 {n : ℕ} {B0 B1 B2 : ℕ → ℕ → α} {i c : ℕ} (h : c < n) :
    hcat3 n B0 B1 B2 i (n + c) = B1 i c := by
  have h1 : ¬ (n + c < n) := by omega
  have h2 : n + c < 2 * n := by omega
  have h3 : n + c - n = c := by omega
  simp [hcat3, h1, h2, h3]

lemma hcat3_b2 {n : ℕ} {B0 B1 B2 : ℕ → ℕ → α} {i c : ℕ} (h : c < n) :
    hcat3 n B0 B1 B2 i (2 * n + c) = B2 i c := by
  have h1 : ¬ (2 * n + c < n) := by omega
  have h2 : ¬ (2 * n + c < 2 * n) := by omega
  have h3 : 2 * n + c < 3 * n := by omega
  have h4 : 2 * n + c - 2 * n = c := by omega
  simp [hcat3, h1, h2, h3, h4]

lemma hcat3_hi {n : ℕ} {B0 B1 B2 : ℕ → ℕ → α} {i j : ℕ} (h : 3 * n ≤ j) :
    hcat3 n B0 B1 B2 i j = 0 := by
  have h1 : ¬ (j < n) := by omega
  have h2 : ¬ (j < 2 * n) := by omega
  have h3 : ¬ (j < 3 * n) := by omega
  simp [hcat3, h1, h2, h3]

lemma P_r0 {m n : ℕ} {S : α} {Gx Gy Gz : ℕ → ℕ → α} {r j : ℕ} (h : r < m) :
    P m n S Gx Gy Gz r j = hcat3 n (cmul 2 Gx) zeroM zeroM r j := by
  simp [P, h]

lemma P_r1 {m n : ℕ} {S : α} {Gx Gy Gz : ℕ → ℕ → α} {r j : ℕ} (h : r < m) :
    P m n S Gx Gy Gz (m + r) j = hcat3 n zeroM (cmul 2 Gy) zeroM r j := by
  have h1 : ¬ (m + r < m) := by omega
  have h2 : m + r < 2 * m := by omega
  have h3 : m + r - m = r := by omega
  simp [P, h1, h2, h3]

lemma P_r2 {m n : ℕ} {S : α} {Gx Gy Gz : ℕ → ℕ → α} {r j : ℕ} (h : r < m) :
    P m n S Gx Gy Gz (2 * m + r) j = hcat3 n zeroM zeroM (cmul 2 Gz) r j := by
  have h1 : ¬ (2 * m + r < m) := by omega
  have h2 : ¬ (2 * m + r < 2 * m) := by omega
  have h3 : 2 * m + r < 3 * m := by omega
  have h4 : 2 * m + r - 2 * m = r := by omega
  simp [P, h1, h2, h3, h4]

lemma P_r3 {m n : ℕ} {S : α} {Gx Gy Gz : ℕ → ℕ → α} {r j : ℕ} (h : r < m) :
    P m n S Gx Gy Gz (3 * m + r) j = hcat3 n (cmul S Gy) (cmul S Gx) zeroM r j := by
  have h1 : ¬ (3 * m + r < m) := by omega
  have h2 : ¬ (3 * m + r < 2 * m) := by omega
  have h3 : ¬ (3 * m + r < 3 * m) := by omega
  have h4 : 3 * m + r < 4 * m := by omega
  have h5 : 3 * m + r - 3 * m = r := by omega
  simp [P, h1, h2, h3, h4, h5]

lemma P_r4 {m n : ℕ} {S : α} {Gx Gy Gz : ℕ → ℕ → α} {r j : ℕ} (h : r < m) :
    P m n S Gx Gy Gz (4 * m + r) j = hcat3 n (cmul S Gz) zeroM (cmul S Gx) r j := by
  have h1 : ¬ (4 * m + r < m) := by omega
  have h2 : ¬ (4 * m + r < 2 * m) := by omega
  have h3 : ¬ (4 * m + r < 3 * m) := by omega
  have h4 : ¬ (4 * m + r < 4 * m) := by omega
  have h5 : 4 * m + r < 5 * m := by omega
  have h6 : 4 * m + r - 4 * m = r := by omega
  simp [P, h1, h2, h3, h4, h5, h6]

lemma P_r5 {m n : ℕ} {S : α} {Gx Gy Gz : ℕ → ℕ → α} {r j : ℕ} (h : r < m) :
    P m n S Gx Gy Gz (5 * m + r) j = hcat3 n zeroM (cmul S Gz) (cmul S Gy) r j := by
  have h1 : ¬ (5 * m + r < m) := by omega
  have h2 : ¬ (5 * m + r < 2 * m) := by omega
  have h3 : ¬ (5 * m + r < 3 * m) := by omega
  have h4 : ¬ (5 * m + r < 4 * m) := by omega
  have h5 : ¬ (5 * m + r < 5 * m) := by omega
  have h6 : 5 * m + r < 6 * m := by omega
  have h7 : 5 * m + r - 5 * m = r := by omega
  simp [P, h1, h2, h3, h4, h5, h6, h7]

lemma P_row_hi {m n : ℕ} {S : α} {Gx Gy Gz : ℕ → ℕ → α} {i j : ℕ} (h : 6 * m ≤ i) :
    P m n S Gx Gy Gz i j = 0 := by
  have h1 : ¬ (i < m) := by omega
  have h2 : ¬ (i < 2 * m) := by omega
  have h3 : ¬ (i < 3 * m) := by omega
  have h4 : ¬ (i < 4 * m) := by omega
  have h5 : ¬ (i < 5 * m) := by omega
  have h6 : ¬ (i < 6 * m) := by omega
  simp [P, h1, h2, h3, h4, h5, h6]

lemma P_col_hi {m n : ℕ} {S : α} {Gx Gy Gz : ℕ → ℕ → α} {i j : ℕ} (h : 3 * n ≤ j) :
    P m n S Gx Gy Gz i j = 0 := by
  unfold P
  split_ifs <;> first | rfl | exact hcat3_hi h

/-- C1: the Killing-energy operator `P` built from the `m×n` gradient blocks
`Gx, Gy, Gz` has shape `6m × 3n` with columns ordered `[x | y | z]`, and its
six row-blocks are exactly `[2Gx,0,0]`, `[0,2Gy,0]`, `[0,0,2Gz]`,
`[√2·Gy,√2·Gx,0]`, `[√2·Gz,0,√2·Gx]`, `[0,√2·Gz,√2·Gy]`, every other block
position being zero (entries beyond row `6m` or column `3n` vanish). -/
theorem killing_operator_blocks (m n : ℕ) (Gx Gy Gz : ℕ → ℕ → ℝ) (r c : ℕ)
    (hr : r < m) (hc : c < n) :
    (P m n (Real.sqrt 2) Gx Gy Gz r c = 2 * Gx r c) ∧
    (P m n (Real.sqrt 2) Gx Gy Gz r (n + c) = 0) ∧
    (P m n (Real.sqrt 2) Gx Gy Gz r (2 * n + c) = 0) ∧
    (P m n (Real.sqrt 2) Gx Gy Gz (m + r) c = 0) ∧
    (P m n (Real.sqrt 2) Gx Gy Gz (m + r) (n + c) = 2 * Gy r c) ∧
    (P m n (Real.sqrt 2) Gx Gy Gz (m + r) (2 * n + c) = 0) ∧
    (P m n (Real.sqrt 2) Gx Gy Gz (2 * m + r) c = 0) ∧
    (P m n (Real.sqrt 2) Gx Gy Gz (2 * m + r) (n + c) = 0) ∧
    (P m n (Real.sqrt 2) Gx Gy Gz (2 * m + r) (2 * n + c) = 2 * Gz r c) ∧
    (P m n (Real.sqrt 2) Gx Gy Gz (3 * m + r) c = Real.sqrt 2 * Gy r c) ∧
    (P m n (Real.sqrt 2) Gx Gy Gz (3 * m + r) (n + c) = Real.sqrt 2 * Gx r c) ∧
    (P m n (Real.sqrt 2) Gx Gy Gz (3 * m + r) (2 * n + c) = 0) ∧
    (P m n (Real.sqrt 2) Gx Gy Gz (4 * m + r) c = Real.sqrt 2 * Gz r c) ∧
    (P m n (Real.sqrt 2) Gx Gy Gz (4 * m + r) (n + c) = 0) ∧
    (P m n (Real.sqrt 2) Gx Gy Gz (4 * m + r) (2 * n + c) = Real.sqrt 2 * Gx r c) ∧
    (P m n (Real.sqrt 2) Gx Gy Gz (5 * m + r) c = 0) ∧
    (P m n (Real.sqrt 2) Gx Gy Gz (5 * m + r) (n + c) = Real.sqrt 2 * Gz r c) ∧
    (P m n (Real.sqrt 2) Gx Gy Gz (5 * m + r) (2 * n + c) = Real.sqrt 2 * Gy r c) ∧
    (∀ i j, 6 * m ≤ i → P m n (Real.sqrt 2) Gx Gy Gz i j = 0) ∧
    (∀ i j, 3 * n ≤ j → P m n (Real.sqrt 2) Gx Gy Gz i j = 0) := by
  refine ⟨?_, ?_, ?_, ?_, ?_, ?_, ?_, ?_, ?_, ?_, ?_, ?_, ?_, ?_, ?_, ?_, ?_, ?_,
    fun i j h => P_row_hi h, fun i j h => P_col_hi h⟩
  · rw [P_r0 hr, hcat3_b0 hc]; rfl
  · rw [P_r0 hr, hcat3_b1 hc]; rfl
  · rw [P_r0 hr, hcat3_b2 hc]; rfl
  · rw [P_r1 hr, hcat3_b0 hc]; rfl
  · rw [P_r1 hr, hcat3_b1 hc]; rfl
  · rw [P_r1 hr, hcat3_b2 hc]; rfl
  · rw [P_r2 hr, hcat3_b0 hc]; rfl
  · rw [P_r2 hr, hcat3_b1 hc]; rfl
  · rw [P_r2 hr, hcat3_b2 hc]; rfl
  · rw [P_r3 hr, hcat3_b0 hc]; rfl
  · rw [P_r3 hr, hcat3_b1 hc]; rfl
  · rw [P_r3 hr, hcat3_b2 hc]; rfl
  · rw [P_r4 hr, hcat3_b0 hc]; rfl
  · rw [P_r4 hr, hcat3_b1 hc]; rfl
  · rw [P_r4 hr, hcat3_b2 hc]; rfl
  · rw [P_r5 hr, hcat3_b0 hc]; rfl
  · rw [P_r5 hr, hcat3_b1 hc]; rfl
  · rw [P_r5 hr, hcat3_b2 hc]; rfl

/-- Witness for C1 at the concrete instance `m = n = 1`, all gradient entries
equal to `1`, row `r = 0`, column `c = 0`: the shear block of `P` at position
`(3m, n)` equals `√2`. -/
theorem killing_operator_blocks_witness :
    P 1 1 (Real.sqrt 2) (fun _ _ => (1:ℝ)) (fun _ _ => 1) (fun _ _ => 1)
      (3 * 1 + 0) (1 + 0) = Real.sqrt 2 * 1 :=
  (killing_operator_blocks 1 1 (fun _ _ => 1) (fun _ _ => 1) (fun _ _ => 1) 0 0
    Nat.one_pos Nat.one_pos).2.2.2.2.2.2.2.2.2.2.1

/-- C3: the `order F` flattening used for the right-hand side `b` and the
`order F` reshape used for the solution `du` are the same column-block-major
convention: flattening an `n × 3` array and reshaping the result returns the
original array entrywise. -/
theorem flatten_reshape_roundtrip (n : ℕ) (M : ℕ → ℕ → ℝ) (i c : ℕ) (hi : i < n) :
    reshapeF n (flattenF n M) i c = M i c := by
  have hn : 0 < n := lt_of_le_of_lt (Nat.zero_le i) hi
  have h1 : (c * n + i) % n = i := by
    rw [Nat.mul_comm, Nat.mul_add_mod, Nat.mod_eq_of_lt hi]
  have h2 : (c * n + i) / n = c := by
    rw [Nat.mul_comm, Nat.mul_add_div hn, Nat.div_eq_of_lt hi, Nat.add_zero]
  simp [reshapeF, flattenF, h1, h2]

/-- Witness for C3 at `n = 1`, the constant array `5`, entry `(0, 2)`. -/
theorem flatten_reshape_roundtrip_witness :
    reshapeF 1 (flattenF 1 (fun _ _ => (5:ℝ))) 0 2 = (fun (_ _ : ℕ) => (5:ℝ)) 0 2 :=
  flatten_reshape_roundtrip 1 (fun _ _ => 5) 0 2 Nat.one_pos

/-- C5: the energy evaluator `e_K` returns, at face `i`, the sum of the
squared entries of `P·x` at rows `i, m+i, 2m+i, 3m+i, 4m+i, 5m+i` (one from
each of the six row-blocks of `P`), and this value is non-negative. -/
theorem face_energy_terms (m n : ℕ) (Gx Gy Gz : ℕ → ℕ → ℝ) (x : ℕ → ℝ) (i : ℕ) :
    e_K m n (P m n (Real.sqrt 2) Gx Gy Gz) x i
      = matVec (3 * n) (P m n (Real.sqrt 2) Gx Gy Gz) x i ^ 2
        + matVec (3 * n) (P m n (Real.sqrt 2) Gx Gy Gz) x (m + i) ^ 2
        + matVec (3 * n) (P m n (Real.sqrt 2) Gx Gy Gz) x (2 * m + i) ^ 2
        + matVec (3 * n) (P m n (Real.sqrt 2) Gx Gy Gz) x (3 * m + i) ^ 2
        + matVec (3 * n) (P m n (Real.sqrt 2) Gx Gy Gz) x (4 * m + i) ^ 2
        + matVec (3 * n) (P m n (Real.sqrt 2) Gx Gy Gz) x (5 * m + i) ^ 2
      ∧ 0 ≤ e_K m n (P m n (Real.sqrt 2) Gx Gy Gz) x i := by
  constructor
  · simp [e_K, Finset.sum_range_succ, Nat.add_comm]
  · exact Finset.sum_nonneg fun c _ => sq_nonneg _

/-- Splitting a sum over `range (a*m)` into `a` consecutive blocks of `m`. -/
lemma sum_range_mul_block {β : Type} [AddCommMonoid β] (a m : ℕ) (g : ℕ → β) :
    ∑ r ∈ Finset.range (a * m), g r
      = ∑ c ∈ Finset.range a, ∑ i ∈ Finset.range m, g (c * m + i) := by
  induction a with
  | zero => simp
  | succ a ih =>
      have h : (a + 1) * m = a * m + m := by ring
      rw [h, Finset.sum_range_add, ih, Finset.sum_range_succ]

/-- C10: the per-face energies sum to the squared 2-norm of `P·x`, so the
energy evaluator is an exact decomposition of the Killing-energy term of the
least-squares objective. -/
theorem face_energy_sum (m n : ℕ) (Gx Gy Gz : ℕ → ℕ → ℝ) (x : ℕ → ℝ) :
    ∑ i ∈ Finset.range m, e_K m n (P m n (Real.sqrt 2) Gx Gy Gz) x i
      = sqnormN (6 * m) (matVec (3 * n) (P m n (Real.sqrt 2) Gx Gy Gz) x) := by
  unfold e_K sqnormN
  rw [sum_range_mul_block 6 m]
  exact Finset.sum_comm

/-! ### The constraint-building loop -/

lemma buildIAux_ok {n : ℕ} (idxs : List ℕ) :
    ∀ (i0 : ℕ) (M : ℕ → ℕ → α), (∀ idx ∈ idxs, idx < n) →
      buildIAux n i0 idxs M = Except.ok (fun i j =>
        if i0 ≤ i ∧ i < i0 + idxs.length ∧ idxs.getD (i - i0) 0 = j then 1 else M i j) := by
  induction idxs with
  | nil =>
      intro i0 M _
      have hb : buildIAux (α := α) n i0 [] M = Except.ok M := rfl
      rw [hb]
      refine congrArg Except.ok ?_
      funext i j
      simp only [List.length_nil, Nat.add_zero]
      rw [if_neg]
      rintro ⟨h1, h2, -⟩
      omega
  | cons idx rest ih =>
      intro i0 M h
      have hidx : idx < n := h idx (List.mem_cons_self _ _)
      have hb : buildIAux n i0 (idx :: rest) M
          = buildIAux n (i0 + 1) rest (setEntry M i0 idx 1) := by
        rw [buildIAux, if_pos hidx]
      rw [hb, ih (i0 + 1) (setEntry M i0 idx 1) (fun a ha => h a (List.mem_cons_of_mem _ ha))]
      refine congrArg Except.ok ?_
      funext i j
      rcases lt_trichotomy i i0 with hlt | heq | hgt
      · rw [if_neg (by rintro ⟨h1, -, -⟩; omega), if_neg (by rintro ⟨h1, -, -⟩; omega)]
        rw [setEntry]
        exact if_neg (by rintro ⟨h1, -⟩; omega)
      · subst heq
        rw [if_neg (by rintro ⟨h1, -, -⟩; omega)]
        rw [setEntry]
        simp only [List.length_cons, Nat.sub_self, List.getD_cons_zero]
        by_cases hj : j = idx
        · rw [if_pos (show _ ∧ j = idx from ⟨by simp, hj⟩),
            if_pos ⟨le_refl i, by omega, hj.symm⟩]
        · rw [if_neg (by rintro ⟨-, hc⟩; exact hj hc),
            if_neg (by rintro ⟨-, -, hc⟩; exact hj hc.symm)]
      · have hs : i - i0 = (i - (i0 + 1)) + 1 := by omega
        simp only [List.length_cons, hs, List.getD_cons_succ]
        by_cases hg : rest.getD (i - (i0 + 1)) 0 = j
        · by_cases hub : i < i0 + 1 + rest.length
          · rw [if_pos ⟨by omega, hub, hg⟩, if_pos ⟨by omega, by omega, hg⟩]
          · rw [if_neg (by rintro ⟨-, hc, -⟩; exact hub hc),
              if_neg (by rintro ⟨-, hc, -⟩; omega)]
            rw [setEntry]
            exact if_neg (by rintro ⟨h1, -⟩; omega)
        · rw [if_neg (by rintro ⟨-, -, hc⟩; exact hg hc),
            if_neg (by rintro ⟨-, -, hc⟩; exact hg hc)]
          rw [setEntry]
          exact if_neg (by rintro ⟨h1, -⟩; omega)

/-- On in-range constraint ids, the enumerate loop of the notebook succeeds
and produces the selection matrix `Ifun idxs`. -/
lemma buildI_ok {n : ℕ} {idxs : List ℕ} (h : ∀ idx ∈ idxs, idx < n) :
    buildI n idxs = Except.ok (Ifun idxs : ℕ → ℕ → α) := by
  rw [buildI, buildIAux_ok idxs 0 _ h]
  refine congrArg Except.ok ?_
  funext i j
  simp only [Ifun, Nat.zero_add, Nat.sub_zero]
  by_cases hc : i < idxs.length ∧ idxs.getD i 0 = j
  · rw [if_pos ⟨Nat.zero_le i, hc.1, hc.2⟩, if_pos hc]
  · rw [if_neg (by rintro ⟨-, h1, h2⟩; exact hc ⟨h1, h2⟩), if_neg hc]

lemma buildIAux_err {n : ℕ} (idxs : List ℕ) :
    ∀ (i0 : ℕ) (M : ℕ → ℕ → α), (∃ idx ∈ idxs, n ≤ idx) →
      buildIAux n i0 idxs M = Except.error AkvfErr.indexError := by
  induction idxs with
  | nil =>
      rintro i0 M ⟨idx, hm, -⟩
      exact absurd hm (List.not_mem_nil idx)
  | cons idx rest ih =>
      rintro i0 M ⟨a, ha, hn⟩
      by_cases hidx : idx < n
      · have hb : buildIAux n i0 (idx :: rest) M
            = buildIAux n (i0 + 1) rest (setEntry M i0 idx 1) := by
          rw [buildIAux, if_pos hidx]
        rw [hb]
        rcases List.mem_cons.mp ha with rfl | hmem
        · omega
        · exact ih (i0 + 1) _ ⟨a, hmem, hn⟩
      · rw [buildIAux, if_neg hidx]

/-- An out-of-range constraint id makes the loop fail with the library
generic index error. -/
lemma buildI_err {n : ℕ} {idxs : List ℕ} (h : ∃ idx ∈ idxs, n ≤ idx) :
    buildI (α := α) n idxs = Except.error AkvfErr.indexError :=
  buildIAux_err idxs 0 _ h

/-! ### Entry lemmas for the constraint operator -/

lemma Ik_r0 {k n : ℕ} {I : ℕ → ℕ → α} {i j : ℕ} (h : i < k) :
    Ik k n I i j = hcat3 n I zeroM zeroM i j := by
  simp [Ik, h]

lemma Ik_r1 {k n : ℕ} {I : ℕ → ℕ → α} {i j : ℕ} (h : i < k) :
    Ik k n I (k + i) j = hcat3 n zeroM I zeroM i j := by
  have h1 : ¬ (k + i < k) := by omega
  have h2 : k + i < 2 * k := by omega
  have h3 : k + i - k = i := by omega
  simp [Ik, h1, h2, h3]

lemma Ik_r2 {k n : ℕ} {I : ℕ → ℕ → α} {i j : ℕ} (h : i < k) :
    Ik k n I (2 * k + i) j = hcat3 n zeroM zeroM I i j := by
  have h1 : ¬ (2 * k + i < k) := by omega
  have h2 : ¬ (2 * k + i < 2 * k) := by omega
  have h3 : 2 * k + i < 3 * k := by omega
  have h4 : 2 * k + i - 2 * k = i := by omega
  simp [Ik, h1, h2, h3, h4]

lemma Ik_row_hi {k n : ℕ} {I : ℕ → ℕ → α} {i j : ℕ} (h : 3 * k ≤ i) :
    Ik k n I i j = 0 := by
  have h1 : ¬ (i < k) := by omega
  have h2 : ¬ (i < 2 * k) := by omega
  have h3 : ¬ (i < 3 * k) := by omega
  simp [Ik, h1, h2, h3]

lemma Ik_col_hi {k n : ℕ} {I : ℕ → ℕ → α} {i j : ℕ} (h : 3 * n ≤ j) :
    Ik k n I i j = 0 := by
  unfold Ik
  split_ifs <;> first | rfl | exact hcat3_hi h

/-- C4: for any in-range list of constrained vertex ids (duplicates allowed),
`buildI` succeeds and yields the selection matrix whose row `i` has its only
nonzero entry, a `1`, at column `idxs[i]`; the operator `Ik` is block-diagonal
with three copies of that matrix (shape `3k × 3n`, entries beyond that are
zero), and duplicated ids give independent identical rows. -/
theorem constraint_operator_structure (n : ℕ) (idxs : List ℕ)
    (h : ∀ idx ∈ idxs, idx < n) :
    (buildI n idxs = Except.ok (Ifun idxs : ℕ → ℕ → ℝ)) ∧
    (∀ i, i < idxs.length → ∀ j,
      (Ifun idxs i j : ℝ) = if j = idxs.getD i 0 then 1 else 0) ∧
    (∀ a, a < 3 → ∀ cb, cb < 3 → ∀ i, i < idxs.length → ∀ j, j < n →
      Ik idxs.length n (Ifun idxs) (a * idxs.length + i) (cb * n + j)
        = if a = cb then (Ifun idxs i j : ℝ) else 0) ∧
    (∀ i j, 3 * idxs.length ≤ i → Ik idxs.length n (Ifun idxs : ℕ → ℕ → ℝ) i j = 0) ∧
    (∀ i j, 3 * n ≤ j → Ik idxs.length n (Ifun idxs : ℕ → ℕ → ℝ) i j = 0) ∧
    (∀ i1 i2, i1 < idxs.length → i2 < idxs.length →
      idxs.getD i1 0 = idxs.getD i2 0 → ∀ j, (Ifun idxs i1 j : ℝ) = Ifun idxs i2 j) := by
  refine ⟨buildI_ok h, ?_, ?_, fun i j hij => Ik_row_hi hij, fun i j hij => Ik_col_hi hij, ?_⟩
  · intro i hi j
    unfold Ifun
    split_ifs with h1 h2 h2 <;> first | rfl | (exfalso; omega)
  · intro a ha cb hcb i hi j hj
    interval_cases a <;> interval_cases cb <;>
      simp only [Nat.zero_mul, Nat.one_mul, Nat.zero_add] <;>
      (first | rw [Ik_r2 hi] | rw [Ik_r1 hi] | rw [Ik_r0 hi]) <;>
      (first | rw [hcat3_b2 hj] | rw [hcat3_b1 hj] | rw [hcat3_b0 hj]) <;>
      simp [zeroM]
  · intro i1 i2 h1 h2 hdup j
    unfold Ifun
    split_ifs with hc1 hc2 hc2 <;> first | rfl | (exfalso; omega)

/-- Witness for C4 at the duplicated constraint list `[0, 0]` with `n = 1`:
the loop succeeds and yields the selection matrix. -/
theorem constraint_operator_structure_witness :
    buildI 1 [0, 0] = Except.ok (Ifun [0, 0] : ℕ → ℕ → ℝ) :=
  (constraint_operator_structure 1 [0, 0] (by decide)).1

/-! ### Pipeline reduction lemmas -/

lemma solve_akvf_ok (S : α)
    (lsqrF : (ℕ → ℕ → α) → (ℕ → α) → ((ℕ → α) × LsqrInfo))
    (m n : ℕ) (Gx Gy Gz : ℕ → ℕ → α) (idxs : List ℕ) (dv : ℕ → ℕ → α)
    (lmbd : α) (h : ∀ idx ∈ idxs, idx < n) :
    solve_akvf S lsqrF m n Gx Gy Gz idxs dv lmbd
      = Except.ok (reshapeF n
          ((lsqrF (A m idxs.length lmbd (P m n S Gx Gy Gz) (Ik idxs.length n (Ifun idxs)))
                  (b m idxs.length lmbd (targetsOf idxs dv))).1)) := by
  unfold solve_akvf
  rw [buildI_ok h]
  rfl

lemma solve_akvf_errIdx (S : α)
    (lsqrF : (ℕ → ℕ → α) → (ℕ → α) → ((ℕ → α) × LsqrInfo))
    (m n : ℕ) (Gx Gy Gz : ℕ → ℕ → α) (idxs : List ℕ) (dv : ℕ → ℕ → α)
    (lmbd : α) (h : ∃ idx ∈ idxs, n ≤ idx) :
    solve_akvf S lsqrF m n Gx Gy Gz idxs dv lmbd = Except.error AkvfErr.indexError := by
  unfold solve_akvf
  rw [buildI_err h]
  rfl

/-- C6 counterexample: with `n = 1` vertex and the out-of-range constrained
id `5`, the concrete pipeline fails with the library generic index error,
not with `InvalidConstraintError` (nor `InvalidMeshError`): no eager
structural-validation step producing those errors exists in the code. -/
theorem invalid_constraint_counterexample :
    solve_akvf (Real.sqrt 2) (fun _ _ => (fun _ => (0:ℝ), LsqrInfo.mk 0)) 1 1
        (fun _ _ => 0) (fun _ _ => 0) (fun _ _ => 0) [5] (fun _ _ => 0) 1
      = Except.error AkvfErr.indexError ∧
    AkvfErr.indexError ≠ AkvfErr.invalidConstraint ∧
    AkvfErr.indexError ≠ AkvfErr.invalidMesh := by
  refine ⟨?_, by decide, by decide⟩
  exact solve_akvf_errIdx _ _ 1 1 _ _ _ [5] _ 1 ⟨5, by decide, by decide⟩

/-- C6 (amended): an out-of-range constrained vertex id makes the pipeline
fail during constraint-operator assembly — before the least-squares solver is
ever consulted — but with the sparse library generic index error, not with
a dedicated `InvalidConstraintError`; face indices are never validated by the
core at all (they are only passed to the external gradient routine). -/
theorem out_of_range_constraint_error
    (lsqrF : (ℕ → ℕ → ℝ) → (ℕ → ℝ) → ((ℕ → ℝ) × LsqrInfo))
    (m n : ℕ) (Gx Gy Gz : ℕ → ℕ → ℝ) (idxs : List ℕ) (dv : ℕ → ℕ → ℝ)
    (lmbd : ℝ) (h : ∃ idx ∈ idxs, n ≤ idx) :
    solve_akvf (Real.sqrt 2) lsqrF m n Gx Gy Gz idxs dv lmbd
        = Except.error AkvfErr.indexError ∧
    solve_akvf (Real.sqrt 2) lsqrF m n Gx Gy Gz idxs dv lmbd
        ≠ Except.error AkvfErr.invalidConstraint := by
  have he := solve_akvf_errIdx (Real.sqrt 2) lsqrF m n Gx Gy Gz idxs dv lmbd h
  refine ⟨he, ?_⟩
  intro hc
  rw [he] at hc
  exact AkvfErr.noConfusion (Except.error.inj hc)

/-- Witness for C6 (amended) at the concrete out-of-range input `[5]`, `n = 1`. -/
theorem out_of_range_constraint_error_witness :
    solve_akvf (Real.sqrt 2) (fun _ _ => (fun _ => (0:ℝ), LsqrInfo.mk 1)) 0 1
        (fun _ _ => 0) (fun _ _ => 0) (fun _ _ => 0) [5] (fun _ _ => 0) 1
      = Except.error AkvfErr.indexError :=
  (out_of_range_constraint_error (fun _ _ => (fun _ => (0:ℝ), LsqrInfo.mk 1)) 0 1
    (fun _ _ => 0) (fun _ _ => 0) (fun _ _ => 0) [5] (fun _ _ => 0) 1
    ⟨5, by decide, by decide⟩).1

/-- C7 counterexample: a solver run whose diagnostics flag non-convergence
(scipy `istop = 7`, iteration limit reached) still makes the pipeline
return the iterate as the final displacement field; no
`NumericalInstabilityError` is reported. -/
theorem solver_divergence_counterexample :
    (LsqrInfo.mk 7).istop = 7 ∧
    solve_akvf (Real.sqrt 2) (fun _ _ => (fun _ => (0:ℝ), LsqrInfo.mk 7)) 1 1
        (fun _ _ => 0) (fun _ _ => 0) (fun _ _ => 0) [0] (fun _ _ => 0) 1
      = Except.ok (reshapeF 1 (fun _ => (0:ℝ))) ∧
    solve_akvf (Real.sqrt 2) (fun _ _ => (fun _ => (0:ℝ), LsqrInfo.mk 7)) 1 1
        (fun _ _ => 0) (fun _ _ => 0) (fun _ _ => 0) [0] (fun _ _ => 0) 1
      ≠ Except.error AkvfErr.numericalInstability := by
  have he := solve_akvf_ok (Real.sqrt 2) (fun _ _ => (fun _ => (0:ℝ), LsqrInfo.mk 7)) 1 1
    (fun _ _ => 0) (fun _ _ => 0) (fun _ _ => 0) [0] (fun _ _ => 0) 1 (by decide)
  refine ⟨rfl, he, ?_⟩
  intro hc
  rw [he] at hc
  exact Except.noConfusion hc

/-- C7 (amended): the pipeline ignores the solver convergence diagnostics
entirely: two solver runs returning the same iterate with different `istop`
flags produce identical results, and the result is always the reshaped
iterate, never an error. -/
theorem solver_diagnostics_ignored
    (m n : ℕ) (Gx Gy Gz : ℕ → ℕ → ℝ) (idxs : List ℕ) (dv : ℕ → ℕ → ℝ)
    (lmbd : ℝ) (xv : ℕ → ℝ) (info1 info2 : LsqrInfo)
    (h : ∀ idx ∈ idxs, idx < n) :
    solve_akvf (Real.sqrt 2) (fun _ _ => (xv, info1)) m n Gx Gy Gz idxs dv lmbd
      = solve_akvf (Real.sqrt 2) (fun _ _ => (xv, info2)) m n Gx Gy Gz idxs dv lmbd ∧
    solve_akvf (Real.sqrt 2) (fun _ _ => (xv, info1)) m n Gx Gy Gz idxs dv lmbd
      = Except.ok (reshapeF n xv) := by
  rw [solve_akvf_ok (Real.sqrt 2) _ m n Gx Gy Gz idxs dv lmbd h,
    solve_akvf_ok (Real.sqrt 2) _ m n Gx Gy Gz idxs dv lmbd h]
  exact ⟨rfl, rfl⟩

/-- Witness for C7 (amended): concrete run with `istop` flags `1` and `7`. -/
theorem solver_diagnostics_ignored_witness :
    solve_akvf (Real.sqrt 2) (fun _ _ => (fun _ => (0:ℝ), LsqrInfo.mk 1)) 1 1
        (fun _ _ => 0) (fun _ _ => 0) (fun _ _ => 0) [0] (fun _ _ => 0) 1
      = solve_akvf (Real.sqrt 2) (fun _ _ => (fun _ => (0:ℝ), LsqrInfo.mk 7)) 1 1
        (fun _ _ => 0) (fun _ _ => 0) (fun _ _ => 0) [0] (fun _ _ => 0) 1 :=
  (solver_diagnostics_ignored 1 1 (fun _ _ => 0) (fun _ _ => 0) (fun _ _ => 0)
    [0] (fun _ _ => 0) 1 (fun _ => 0) (LsqrInfo.mk 1) (LsqrInfo.mk 7) (by decide)).1

/-! ### Entry lemmas for the stacked system -/

lemma flattenF_apply {k : ℕ} (M : ℕ → ℕ → α) {i : ℕ} (c : ℕ) (hi : i < k) :
    flattenF k M (c * k + i) = M i c := by
  have hk : 0 < k := lt_of_le_of_lt (Nat.zero_le i) hi
  have h1 : (c * k + i) % k = i := by
    rw [Nat.mul_comm, Nat.mul_add_mod, Nat.mod_eq_of_lt hi]
  have h2 : (c * k + i) / k = c := by
    rw [Nat.mul_comm, Nat.mul_add_div hk, Nat.div_eq_of_lt hi, Nat.add_zero]
  simp [flattenF, h1, h2]

lemma A_top {m k : ℕ} {lmbd : α} {Pm Ikm : ℕ → ℕ → α} {i j : ℕ} (h : i < 6 * m) :
    A m k lmbd Pm Ikm i j = Pm i j := by
  simp [A, vstack, h]

lemma A_bot {m k : ℕ} {lmbd : α} {Pm Ikm : ℕ → ℕ → α} (r j : ℕ) :
    A m k lmbd Pm Ikm (6 * m + r) j = lmbd * Ikm r j := by
  have h1 : ¬ (6 * m + r < 6 * m) := by omega
  have h2 : 6 * m + r - 6 * m = r := by omega
  simp [A, vstack, cmul, h1, h2]

lemma b_top {m k : ℕ} {lmbd : α} {T : ℕ → ℕ → α} {i : ℕ} (h : i < 6 * m) :
    b m k lmbd T i = 0 := by
  simp [b, h]

lemma b_bot {m k : ℕ} {lmbd : α} {T : ℕ → ℕ → α} {i : ℕ} (c : ℕ) (hi : i < k) :
    b m k lmbd T (6 * m + (c * k + i)) = lmbd * T i c := by
  have h1 : ¬ (6 * m + (c * k + i) < 6 * m) := by omega
  have h2 : 6 * m + (c * k + i) - 6 * m = c * k + i := by omega
  simp [b, h1, h2, flattenF_apply T c hi]

lemma matVec_zero {cols : ℕ} (Am : ℕ → ℕ → α) (i : ℕ) :
    matVec cols Am (fun _ => 0) i = 0 :=
  Finset.sum_eq_zero fun j _ => mul_zero _

lemma lstsqObjective_nonneg {rows cols : ℕ} (Am : ℕ → ℕ → α) (bv x : ℕ → α) :
    0 ≤ lstsqObjective rows cols Am bv x := by
  unfold lstsqObjective sqnormN
  exact Finset.sum_nonneg fun r _ => sq_nonneg _

/-- If the right-hand side vanishes on all equations, the zero vector is a
least-squares solution. -/
lemma isLSQ_zero_of_b_zero {rows cols : ℕ} {Am : ℕ → ℕ → α} {bv : ℕ → α}
    (hb : ∀ r < rows, bv r = 0) :
    IsLSQSol rows cols Am bv (fun _ => 0) := by
  intro y
  have h0 : lstsqObjective rows cols Am bv (fun _ => 0) = 0 := by
    unfold lstsqObjective sqnormN
    refine Finset.sum_eq_zero fun r hr => ?_
    have hbr := hb r (Finset.mem_range.mp hr)
    simp [matVec_zero, hbr]
  rw [h0]
  exact lstsqObjective_nonneg Am bv y

/-- If the right-hand side vanishes on all equations, the zero vector is the
minimum-norm least-squares solution. -/
lemma isMinNorm_zero_of_b_zero {rows cols : ℕ} {Am : ℕ → ℕ → α} {bv : ℕ → α}
    (hb : ∀ r < rows, bv r = 0) :
    IsMinNormLSQ rows cols Am bv (fun _ => 0) := by
  refine ⟨isLSQ_zero_of_b_zero hb, fun y _ => ?_⟩
  have h0 : sqnormN cols (fun _ => (0:α)) = 0 := by
    refine Finset.sum_eq_zero fun r _ => zero_pow (by norm_num)
  rw [h0]
  exact Finset.sum_nonneg fun r _ => sq_nonneg _

/-- C2: for in-range constraints and positive weight, the solve stacks
`A = [P; λ·Ik]` (rows `6m + 3k`, columns `3n`, zero outside), builds `b` as
zeros of length `6m` followed by `λ` times the targets flattened in
column-block order, lets the (externally modelled) least-squares solver
minimise `‖A·x − b‖₂`, and returns that vector reshaped column-block-major
into the `n × 3` displacement array. -/
theorem solve_assembles_lstsq
    (lsqrF : (ℕ → ℕ → ℝ) → (ℕ → ℝ) → ((ℕ → ℝ) × LsqrInfo))
    (m n : ℕ) (Gx Gy Gz : ℕ → ℕ → ℝ) (idxs : List ℕ) (dv : ℕ → ℕ → ℝ)
    (lmbd : ℝ) (hpos : 0 < lmbd) (hidx : ∀ idx ∈ idxs, idx < n)
    (hsol : IsLSQSol (6 * m + 3 * idxs.length) (3 * n)
      (A m idxs.length lmbd (P m n (Real.sqrt 2) Gx Gy Gz) (Ik idxs.length n (Ifun idxs)))
      (b m idxs.length lmbd (targetsOf idxs dv))
      ((lsqrF (A m idxs.length lmbd (P m n (Real.sqrt 2) Gx Gy Gz)
                 (Ik idxs.length n (Ifun idxs)))
              (b m idxs.length lmbd (targetsOf idxs dv))).1)) :
    (∀ i, i < 6 * m → ∀ j,
      A m idxs.length lmbd (P m n (Real.sqrt 2) Gx Gy Gz) (Ik idxs.length n (Ifun idxs)) i j
        = P m n (Real.sqrt 2) Gx Gy Gz i j) ∧
    (∀ r, r < 3 * idxs.length → ∀ j,
      A m idxs.length lmbd (P m n (Real.sqrt 2) Gx Gy Gz) (Ik idxs.length n (Ifun idxs))
          (6 * m + r) j
        = lmbd * Ik idxs.length n (Ifun idxs) r j) ∧
    (∀ i j, 6 * m + 3 * idxs.length ≤ i →
      A m idxs.length lmbd (P m n (Real.sqrt 2) Gx Gy Gz) (Ik idxs.length n (Ifun idxs)) i j
        = 0) ∧
    (∀ i j, 3 * n ≤ j →
      A m idxs.length lmbd (P m n (Real.sqrt 2) Gx Gy Gz) (Ik idxs.length n (Ifun idxs)) i j
        = 0) ∧
    (∀ i, i < 6 * m → b m idxs.length lmbd (targetsOf idxs dv) i = 0) ∧
    (∀ c, c < 3 → ∀ i, i < idxs.length →
      b m idxs.length lmbd (targetsOf idxs dv) (6 * m + (c * idxs.length + i))
        = lmbd * dv (idxs.getD i 0) c) ∧
    IsLSQSol (6 * m + 3 * idxs.length) (3 * n)
      (A m idxs.length lmbd (P m n (Real.sqrt 2) Gx Gy Gz) (Ik idxs.length n (Ifun idxs)))
      (b m idxs.length lmbd (targetsOf idxs dv))
      ((lsqrF (A m idxs.length lmbd (P m n (Real.sqrt 2) Gx Gy Gz)
                 (Ik idxs.length n (Ifun idxs)))
              (b m idxs.length lmbd (targetsOf idxs dv))).1) ∧
    solve_akvf (Real.sqrt 2) lsqrF m n Gx Gy Gz idxs dv lmbd
      = Except.ok (reshapeF n
          ((lsqrF (A m idxs.length lmbd (P m n (Real.sqrt 2) Gx Gy Gz)
                     (Ik idxs.length n (Ifun idxs)))
                  (b m idxs.length lmbd (targetsOf idxs dv))).1)) := by
  refine ⟨fun i hi j => A_top hi, fun r hr j => A_bot r j, ?_, ?_,
    fun i hi => b_top hi, ?_, hsol,
    solve_akvf_ok (Real.sqrt 2) lsqrF m n Gx Gy Gz idxs dv lmbd hidx⟩
  · intro i j hij
    have h1 : ¬ (i < 6 * m) := by omega
    have h2 : 3 * idxs.length ≤ i - 6 * m := by omega
    simp [A, vstack, cmul, h1, Ik_row_hi h2]
  · intro i j hj
    by_cases h1 : i < 6 * m
    · rw [A_top h1]
      exact P_col_hi hj
    · have h2 : i = 6 * m + (i - 6 * m) := by omega
      rw [h2, A_bot, Ik_col_hi hj, mul_zero]
  · intro c hc i hi
    rw [b_bot c hi]
    rfl

/-- Witness for C2 at the concrete instance `m = 0`, `n = 1`, one constraint
at vertex `0` with zero target, weight `1`, and a solver stub returning the
zero vector (which is a least-squares solution there since `b = 0`). -/
theorem solve_assembles_lstsq_witness :
    solve_akvf (Real.sqrt 2) (fun _ _ => (fun _ => (0:ℝ), LsqrInfo.mk 1)) 0 1
        (fun _ _ => 0) (fun _ _ => 0) (fun _ _ => 0) [0] (fun _ _ => 0) 1
      = Except.ok (reshapeF 1 (fun _ => (0:ℝ))) :=
  (solve_assembles_lstsq (fun _ _ => (fun _ => (0:ℝ), LsqrInfo.mk 1)) 0 1
    (fun _ _ => 0) (fun _ _ => 0) (fun _ _ => 0) [0] (fun _ _ => 0) 1
    one_pos (by decide)
    (isLSQ_zero_of_b_zero (by
      intro r hr
      simp [b, flattenF, targetsOf]))).2.2.2.2.2.2.2

/-- C8: with an empty constraint set the right-hand side is zero, so the
minimum-norm least-squares solution of the Killing-energy-only system is the
zero vector; the zero displacement field lies in the rigid-motion space
(translation `0`, rotation `0`) and its Killing energy is exactly `0` on
every face. -/
theorem zero_constraints_min_norm_rigid (m n : ℕ) (lmbd : ℝ)
    (Gx Gy Gz v dv : ℕ → ℕ → ℝ) (x : ℕ → ℝ)
    (hx : IsMinNormLSQ (6 * m + 3 * 0) (3 * n)
      (A m 0 lmbd (P m n (Real.sqrt 2) Gx Gy Gz) (Ik 0 n (Ifun [])))
      (b m 0 lmbd (targetsOf [] dv)) x) :
    (∀ j < 3 * n, x j = 0) ∧
    RigidDisp v n (reshapeF n x) ∧
    (∀ i, e_K m n (P m n (Real.sqrt 2) Gx Gy Gz) x i = 0) := by
  have hb0 : ∀ r < 6 * m + 3 * 0, b m 0 lmbd (targetsOf [] dv) r = 0 := by
    intro r hr
    exact b_top (by omega)
  have h0 : IsLSQSol (6 * m + 3 * 0) (3 * n)
      (A m 0 lmbd (P m n (Real.sqrt 2) Gx Gy Gz) (Ik 0 n (Ifun [])))
      (b m 0 lmbd (targetsOf [] dv)) (fun _ => 0) :=
    isLSQ_zero_of_b_zero hb0
  have hn := hx.2 (fun _ => 0) h0
  have hz : sqnormN (3 * n) (fun _ => (0:ℝ)) = 0 :=
    Finset.sum_eq_zero fun r _ => by simp
  rw [hz] at hn
  have hnn : ∀ r ∈ Finset.range (3 * n), 0 ≤ x r ^ 2 := fun r _ => sq_nonneg _
  have hsum : sqnormN (3 * n) x = 0 := le_antisymm hn (Finset.sum_nonneg hnn)
  have hxz : ∀ j < 3 * n, x j = 0 := by
    intro j hj
    have hterm := (Finset.sum_eq_zero_iff_of_nonneg hnn).mp hsum j (Finset.mem_range.mpr hj)
    exact pow_eq_zero_iff (two_ne_zero) |>.mp hterm
  refine ⟨hxz, ⟨fun _ => 0, fun _ => 0, ?_⟩, ?_⟩
  · intro i hi c hc
    have hle : c * n ≤ 2 * n := Nat.mul_le_mul_right n (by omega)
    have hcn : c * n + i < 3 * n := by omega
    have hre : reshapeF n x i c = x (c * n + i) := rfl
    rw [hre, hxz _ hcn]
    simp [cross3, ite_self]
  · intro i
    unfold e_K
    refine Finset.sum_eq_zero fun c _ => ?_
    have hm : matVec (3 * n) (P m n (Real.sqrt 2) Gx Gy Gz) x (c * m + i) = 0 :=
      Finset.sum_eq_zero fun j hj => by rw [hxz j (Finset.mem_range.mp hj), mul_zero]
    rw [hm]
    simp

/-- Witness for C8: concrete mesh data `m = n = 1`, weight `1`, zero vertex
positions, and the zero vector as the minimum-norm solution; the resulting
displacement field is rigid. -/
theorem zero_constraints_min_norm_rigid_witness :
    RigidDisp (fun _ _ => (0:ℝ)) 1 (reshapeF 1 (fun _ => 0)) :=
  (zero_constraints_min_norm_rigid 1 1 1 (fun _ _ => 0) (fun _ _ => 0) (fun _ _ => 0)
    (fun _ _ => 0) (fun _ _ => 0) (fun _ => 0)
    (isMinNorm_zero_of_b_zero (fun r hr => b_top (by omega)))).2.1

/-! ### The least-squares objective splits into energy and violation parts -/

lemma sqnormN_nonneg (N : ℕ) (v : ℕ → α) : 0 ≤ sqnormN N v :=
  Finset.sum_nonneg fun r _ => sq_nonneg _

lemma matVec_congr {cols : ℕ} (Am : ℕ → ℕ → α) {x y : ℕ → α}
    (h : ∀ j < cols, x j = y j) (i : ℕ) :
    matVec cols Am x i = matVec cols Am y i :=
  Finset.sum_congr rfl fun j hj => by rw [h j (Finset.mem_range.mp hj)]

lemma objective_split (m k n : ℕ) (lmbd : α) (Pm Ikm T : ℕ → ℕ → α) (x : ℕ → α) :
    lstsqObjective (6 * m + 3 * k) (3 * n) (A m k lmbd Pm Ikm) (b m k lmbd T) x
      = sqnormN (6 * m) (matVec (3 * n) Pm x)
        + lmbd ^ 2 * sqnormN (3 * k)
            (fun r => matVec (3 * n) Ikm x r - flattenF k T r) := by
  simp only [lstsqObjective, sqnormN]
  rw [Finset.sum_range_add]
  congr 1
  · refine Finset.sum_congr rfl fun i hi => ?_
    have hi6 := Finset.mem_range.mp hi
    have hA : matVec (3 * n) (A m k lmbd Pm Ikm) x i = matVec (3 * n) Pm x i :=
      Finset.sum_congr rfl fun j _ => by rw [A_top hi6]
    rw [hA, b_top hi6, sub_zero]
  · rw [Finset.mul_sum]
    refine Finset.sum_congr rfl fun r hr => ?_
    have hA : matVec (3 * n) (A m k lmbd Pm Ikm) x (6 * m + r)
        = lmbd * matVec (3 * n) Ikm x r := by
      simp only [matVec]
      rw [Finset.mul_sum]
      refine Finset.sum_congr rfl fun j _ => ?_
      rw [A_bot]
      ring
    have hbr : b m k lmbd T (6 * m + r) = lmbd * flattenF k T r := by
      have hno : ¬ (6 * m + r < 6 * m) := by omega
      simp [b, hno, Nat.add_sub_cancel_left]
    rw [hA, hbr]
    ring

/-! ### Uniqueness of the minimum-norm least-squares solution -/

lemma matVec_midpoint (cols : ℕ) (Am : ℕ → ℕ → α) (x y : ℕ → α) (i : ℕ) :
    matVec cols Am (fun j => (x j + y j) / 2) i
      = (matVec cols Am x i + matVec cols Am y i) / 2 := by
  simp only [matVec]
  rw [← Finset.sum_add_distrib, Finset.sum_div]
  refine Finset.sum_congr rfl fun j _ => ?_
  ring

lemma obj_midpoint_le (rows cols : ℕ) (Am : ℕ → ℕ → α) (bv x y : ℕ → α) :
    lstsqObjective rows cols Am bv (fun j => (x j + y j) / 2)
      ≤ (lstsqObjective rows cols Am bv x + lstsqObjective rows cols Am bv y) / 2 := by
  simp only [lstsqObjective, sqnormN]
  have hpt : ∀ r ∈ Finset.range rows,
      (matVec cols Am (fun j => (x j + y j) / 2) r - bv r) ^ 2
        ≤ ((matVec cols Am x r - bv r) ^ 2 + (matVec cols Am y r - bv r) ^ 2) / 2 := by
    intro r _
    rw [matVec_midpoint]
    nlinarith [sq_nonneg (matVec cols Am x r - matVec cols Am y r)]
  refine le_trans (Finset.sum_le_sum hpt) (le_of_eq ?_)
  rw [← Finset.sum_div, ← Finset.sum_add_distrib]

lemma sqnormN_midpoint (N : ℕ) (x y : ℕ → α) :
    sqnormN N (fun j => (x j + y j) / 2)
      = (sqnormN N x + sqnormN N y) / 2 - sqnormN N (fun j => (x j - y j) / 2) := by
  simp only [sqnormN]
  rw [← Finset.sum_add_distrib, Finset.sum_div, ← Finset.sum_sub_distrib]
  refine Finset.sum_congr rfl fun j _ => ?_
  ring

/-- The minimum-norm least-squares solution is unique (on the system
columns): strict convexity of the squared norm via the midpoint. -/
lemma minNorm_unique {rows cols : ℕ} {Am : ℕ → ℕ → α} {bv : ℕ → α} {x y : ℕ → α}
    (hx : IsMinNormLSQ rows cols Am bv x) (hy : IsMinNormLSQ rows cols Am bv y) :
    ∀ j < cols, x j = y j := by
  intro j hj
  have hobj_eq : lstsqObjective rows cols Am bv x = lstsqObjective rows cols Am bv y :=
    le_antisymm (hx.1 y) (hy.1 x)
  have hzsol : IsLSQSol rows cols Am bv (fun j => (x j + y j) / 2) := by
    intro w
    calc lstsqObjective rows cols Am bv (fun j => (x j + y j) / 2)
        ≤ (lstsqObjective rows cols Am bv x + lstsqObjective rows cols Am bv y) / 2 :=
          obj_midpoint_le rows cols Am bv x y
      _ = lstsqObjective rows cols Am bv x := by rw [hobj_eq]; ring
      _ ≤ lstsqObjective rows cols Am bv w := hx.1 w
  have hnx_le := hx.2 _ hzsol
  have hnxy : sqnormN cols x = sqnormN cols y := le_antisymm (hx.2 y hy.1) (hy.2 x hx.1)
  have hmid := sqnormN_midpoint cols x y
  have hD_nonneg : 0 ≤ sqnormN cols (fun j => (x j - y j) / 2) := sqnormN_nonneg _ _
  have hD_zero : sqnormN cols (fun j => (x j - y j) / 2) = 0 := by
    rw [hmid, ← hnxy] at hnx_le
    linarith
  have hterm : ((x j - y j) / 2) ^ 2 = 0 :=
    (Finset.sum_eq_zero_iff_of_nonneg (fun r _ => sq_nonneg _)).mp hD_zero j
      (Finset.mem_range.mpr hj)
  have hhalf : (x j - y j) / 2 = 0 := pow_eq_zero_iff two_ne_zero |>.mp hterm
  have h2 : (2 : α) ≠ 0 := two_ne_zero
  field_simp at hhalf
  linarith

/-! ### The constraint rows select solution entries -/

lemma Ik_row_entries {n : ℕ} {idxs : List ℕ} {c i : ℕ}
    (hc : c < 3) (hi : i < idxs.length) (hx : idxs.getD i 0 < n) (j : ℕ) :
    Ik idxs.length n (Ifun idxs : ℕ → ℕ → α) (c * idxs.length + i) j
      = if j = c * n + idxs.getD i 0 then 1 else 0 := by
  interval_cases c
  all_goals
    try simp only [Nat.zero_mul, Nat.one_mul, Nat.zero_add]
  all_goals
    first | rw [Ik_r2 hi] | rw [Ik_r1 hi] | rw [Ik_r0 hi]
  all_goals
    simp only [hcat3, Ifun, zeroM]
  all_goals
    try simp only [hi, true_and]
  all_goals
    split_ifs <;> first | rfl | (exfalso; omega)

lemma Ik_row_sel {n : ℕ} {idxs : List ℕ} {c i : ℕ}
    (hc : c < 3) (hi : i < idxs.length) (hx : idxs.getD i 0 < n) (x : ℕ → α) :
    matVec (3 * n) (Ik idxs.length n (Ifun idxs)) x (c * idxs.length + i)
      = x (c * n + idxs.getD i 0) := by
  simp only [matVec]
  have hrow : ∀ j, Ik idxs.length n (Ifun idxs : ℕ → ℕ → α) (c * idxs.length + i) j * x j
      = if j = c * n + idxs.getD i 0 then x j else 0 := by
    intro j
    rw [Ik_row_entries hc hi hx j]
    split_ifs <;> ring
  rw [Finset.sum_congr rfl fun j _ => hrow j, Finset.sum_ite_eq']
  have hmem : c * n + idxs.getD i 0 ∈ Finset.range (3 * n) := by
    refine Finset.mem_range.mpr ?_
    have hle : c * n ≤ 2 * n := Nat.mul_le_mul_right n (by omega)
    omega
  rw [if_pos hmem]

/-- The spec constraint violation `E_C` at the reshaped solution coincides
with the squared residual of the `Ik`-rows of the stacked system. -/
lemma violation_correspondence {n : ℕ} {idxs : List ℕ}
    (hn : ∀ idx ∈ idxs, idx < n) (dv : ℕ → ℕ → α) (x : ℕ → α) :
    E_C idxs dv (reshapeF n x)
      = sqnormN (3 * idxs.length)
          (fun r => matVec (3 * n) (Ik idxs.length n (Ifun idxs)) x r
            - flattenF idxs.length (targetsOf idxs dv) r) := by
  simp only [E_C, sqnormN]
  rw [sum_range_mul_block 3 idxs.length, Finset.sum_comm]
  refine Finset.sum_congr rfl fun c hc => ?_
  refine Finset.sum_congr rfl fun i hi => ?_
  have hc3 := Finset.mem_range.mp hc
  have hik := Finset.mem_range.mp hi
  have hmem : idxs.getD i 0 ∈ idxs := by
    rw [List.getD_eq_getElem idxs 0 hik]
    exact List.getElem_mem hik
  have hxn := hn _ hmem
  rw [Ik_row_sel hc3 hik hxn x, flattenF_apply _ c hik]
  rfl

/-- C9: for a fixed mesh and constraint set, the summed constraint violation
`E_C` at the (minimum-norm) least-squares solution is non-increasing in the
weight: for `0 < λ₁ ≤ λ₂` the violation of the `λ₂`-solution is at most that
of the `λ₁`-solution. -/
theorem violation_monotone_in_weight
    (m n : ℕ) (Gx Gy Gz : ℕ → ℕ → ℝ) (idxs : List ℕ) (dv : ℕ → ℕ → ℝ)
    (l1 l2 : ℝ) (x1 x2 : ℕ → ℝ)
    (hn : ∀ idx ∈ idxs, idx < n) (h0 : 0 < l1) (h12 : l1 ≤ l2)
    (hx1 : IsMinNormLSQ (6 * m + 3 * idxs.length) (3 * n)
      (A m idxs.length l1 (P m n (Real.sqrt 2) Gx Gy Gz) (Ik idxs.length n (Ifun idxs)))
      (b m idxs.length l1 (targetsOf idxs dv)) x1)
    (hx2 : IsMinNormLSQ (6 * m + 3 * idxs.length) (3 * n)
      (A m idxs.length l2 (P m n (Real.sqrt 2) Gx Gy Gz) (Ik idxs.length n (Ifun idxs)))
      (b m idxs.length l2 (targetsOf idxs dv)) x2) :
    E_C idxs dv (reshapeF n x2) ≤ E_C idxs dv (reshapeF n x1) := by
  rw [violation_correspondence hn dv x1, violation_correspondence hn dv x2]
  rcases eq_or_lt_of_le h12 with heq | hlt
  · subst heq
    have huni := minNorm_unique hx1 hx2
    apply le_of_eq
    simp only [sqnormN]
    exact Finset.sum_congr rfl fun r _ => by
      rw [matVec_congr (Ik idxs.length n (Ifun idxs)) huni r]
  · have e1 := hx1.1 x2
    have e2 := hx2.1 x1
    rw [objective_split m idxs.length n l1 (P m n (Real.sqrt 2) Gx Gy Gz)
          (Ik idxs.length n (Ifun idxs)) (targetsOf idxs dv) x1,
        objective_split m idxs.length n l1 (P m n (Real.sqrt 2) Gx Gy Gz)
          (Ik idxs.length n (Ifun idxs)) (targetsOf idxs dv) x2] at e1
    rw [objective_split m idxs.length n l2 (P m n (Real.sqrt 2) Gx Gy Gz)
          (Ik idxs.length n (Ifun idxs)) (targetsOf idxs dv) x2,
        objective_split m idxs.length n l2 (P m n (Real.sqrt 2) Gx Gy Gz)
          (Ik idxs.length n (Ifun idxs)) (targetsOf idxs dv) x1] at e2
    by_contra hc
    push_neg at hc
    have hsq : l1 ^ 2 < l2 ^ 2 := by nlinarith
    nlinarith [e1, e2, mul_pos (sub_pos.mpr hsq) (sub_pos.mpr hc)]

/-- Witness for C9: concrete instance `m = 0`, `n = 1`, one constraint with
zero target, weights `1 ≤ 2`, zero vector as minimum-norm solution for both. -/
theorem violation_monotone_in_weight_witness :
    E_C [0] (fun _ _ => (0:ℝ)) (reshapeF 1 (fun _ => 0))
      ≤ E_C [0] (fun _ _ => (0:ℝ)) (reshapeF 1 (fun _ => 0)) :=
  violation_monotone_in_weight 0 1 (fun _ _ => 0) (fun _ _ => 0) (fun _ _ => 0)
    [0] (fun _ _ => 0) 1 2 (fun _ => 0) (fun _ => 0)
    (by decide) one_pos (by norm_num)
    (isMinNorm_zero_of_b_zero (by intro r hr; simp [b, flattenF, targetsOf]))
    (isMinNorm_zero_of_b_zero (by intro r hr; simp [b, flattenF, targetsOf]))

end AKVF
